import Mathlib

/-!
Verification of the differential-uplift analysis pipeline (`analysis.py`).

The pipeline is embedded shallowly:
* timestamps are natural numbers (seconds for raw samples, hours for the
  resampled per-station series, days for the daily aggregate),
* measured values are rationals (`ℚ`), with `Option ℚ` standing for a value
  that may be missing (pandas `NaN`),
* a time-indexed series is a list of (timestamp, value) pairs.

Pandas/xarray primitives used by the source (centered rolling median with
`min_periods=1`, `resample(...).mean()`, `sort_index`, index de-duplication,
outer alignment followed by `dropna`, label slicing) are translated into
executable list functions below.
-/

namespace Botpt

/-- Conversion from pressure (psia) to depth in metres: `(p - 14.7) * 0.670`,
from `pressure_to_depth` in `analysis.py`. -/
def pressure_to_depth (p : ℚ) : ℚ := (p - 147/10) * (670/1000)

/-- The MAD-to-standard-deviation scale factor `1.4826` used in `remove_spikes`. -/
def madScale : ℚ := 14826/10000

/-- Mean of a list of rationals; `none` on the empty list (pandas `mean` with
`skipna` yields `NaN` when no observation is present). -/
def meanOpt (l : List ℚ) : Option ℚ :=
  if l.isEmpty then none else some (l.sum / l.length)

/-- Smallest key of a keyed list (`0` for the empty list, never used there). -/
def minKey {α : Type} : List (ℕ × α) → ℕ
  | [] => 0
  | p :: r => r.foldl (fun a q => min a q.1) p.1

/-- Largest key of a keyed list (`0` for the empty list, never used there). -/
def maxKey {α : Type} : List (ℕ × α) → ℕ
  | [] => 0
  | p :: r => r.foldl (fun a q => max a q.1) p.1

/-- Hour bin of a timestamp in seconds (`resample("1h")` bin assignment). -/
def hourOf (t : ℕ) : ℕ := t / 3600

/-- Day bin of a timestamp in hours (`resample("1D")` bin assignment). -/
def dayOfHour (h : ℕ) : ℕ := h / 24

/-- Sorting a list of rationals (ascending), used to compute medians. -/
def sortRat (l : List ℚ) : List ℚ := List.insertionSort (· ≤ ·) l

/-- Median of a list of rationals, as numpy/pandas compute it: the middle
element of the sorted list for odd length, the average of the two middle
elements for even length, undefined (`none`) for the empty list. -/
def median (l : List ℚ) : Option ℚ :=
  if l.length % 2 = 1 then (sortRat l)[l.length / 2]?
  else
    match (sortRat l)[l.length / 2 - 1]?, (sortRat l)[l.length / 2]? with
    | some a, some b => some ((a + b) / 2)
    | _, _ => none

/-- First (inclusive) position covered by a centered rolling window of width
`w` at position `i`: pandas uses `offset = (w - 1) / 2` extra positions on the
right, hence `w - 1 - (w - 1) / 2` on the left (truncated at `0`). -/
def rollWinLo (w i : ℕ) : ℕ := i - (w - 1 - (w - 1) / 2)

/-- Number of positions covered by the centered rolling window at `i` (before
clipping on the right). -/
def rollWinLen (w i : ℕ) : ℕ := i + (w - 1) / 2 + 1 - rollWinLo w i

/-- The non-missing values inside the centered rolling window at position `i`
(`min_periods=1`: missing values are skipped, edges simply use fewer
neighbours). -/
def windowVals (w : ℕ) (xs : List (Option ℚ)) (i : ℕ) : List ℚ :=
  ((xs.drop (rollWinLo w i)).take (rollWinLen w i)).filterMap id

/-- `series.rolling(window=w, center=True, min_periods=1).median()`. -/
def rollingMedian (w : ℕ) (xs : List (Option ℚ)) : List (Option ℚ) :=
  (List.range xs.length).map (fun i => median (windowVals w xs i))

/-- `(series - rolling_median).abs()`: absolute deviation of each point from
its centered rolling median (`none` when the point is missing). -/
def deviationList (w : ℕ) (xs : List (Option ℚ)) : List (Option ℚ) :=
  (List.range xs.length).map (fun i =>
    match xs.getD i none, (rollingMedian w xs).getD i none with
    | some v, some m => some |v - m|
    | _, _ => none)

/-- The value part of `remove_spikes`: a point is flagged iff its deviation
exceeds `threshold * (1.4826 * rolling_mad)`; flagged points become missing,
everything else is returned unchanged. -/
def removeSpikesVals (w : ℕ) (thr : ℚ) (xs : List (Option ℚ)) : List (Option ℚ) :=
  (List.range xs.length).map (fun i =>
    match (deviationList w xs).getD i none,
          (rollingMedian w (deviationList w xs)).getD i none with
    | some d, some m => if thr * (madScale * m) < d then none else xs.getD i none
    | _, _ => xs.getD i none)

/-- `remove_spikes` on a time-indexed series: the index is kept untouched and
the values are filtered by `removeSpikesVals`. -/
def removeSpikesSeries (w : ℕ) (thr : ℚ) (s : List (ℕ × Option ℚ)) : List (ℕ × Option ℚ) :=
  (s.map Prod.fst).zip (removeSpikesVals w thr (s.map Prod.snd))

/-! ### Station loader (`filter_files_by_time_range` window + `load_station`) -/

/-- `TIME_START = "2015-01-01"` as days since 1970-01-01. -/
def TIME_START_DAY : ℕ := 16436

/-- `TIME_END = "2026-01-16"` as days since 1970-01-01. -/
def TIME_END_DAY : ℕ := 20469

/-- First second kept by `ds.sel(time=slice(TIME_START, TIME_END))`. -/
def TIME_START_SEC : ℕ := TIME_START_DAY * 86400

/-- Last second kept by the slice: label slicing on a datetime index expands
the end date `"2026-01-16"` to the whole calendar day, inclusively. -/
def TIME_END_SEC : ℕ := TIME_END_DAY * 86400 + 86399

/-- Restriction of one file's raw samples (seconds, psia) to the requested
window. -/
def windowFilter (xs : List (ℕ × ℚ)) : List (ℕ × ℚ) :=
  xs.filter (fun p => decide (TIME_START_SEC ≤ p.1) && decide (p.1 ≤ TIME_END_SEC))

/-- `series.resample("1h").mean()`: one bin per hour from the first to the
last observed hour; a bin's value is the mean of the samples falling in it,
missing when the bin is empty. -/
def resampleHourly (xs : List (ℕ × ℚ)) : List (ℕ × Option ℚ) :=
  if xs.isEmpty then []
  else
    (List.range (hourOf (maxKey xs) + 1 - hourOf (minKey xs))).map (fun k =>
      (hourOf (minKey xs) + k,
        meanOpt ((xs.filter (fun p => hourOf p.1 = hourOf (minKey xs) + k)).map Prod.snd)))

/-- Per-file processing inside `load_station`'s loop: window-restrict, skip
the file when nothing remains, else convert to depth and aggregate hourly. -/
def fileToHourly (xs : List (ℕ × ℚ)) : Option (List (ℕ × Option ℚ)) :=
  if (windowFilter xs).isEmpty then none
  else some (resampleHourly ((windowFilter xs).map (fun p => (p.1, pressure_to_depth p.2))))

/-- Key-based comparison used to model `sort_index()` on a series. -/
def keyLe {α : Type} (p q : ℕ × α) : Prop := p.1 ≤ q.1

instance {α : Type} : DecidableRel (keyLe (α := α)) := fun p q => Nat.decLe p.1 q.1

instance {α : Type} : IsTotal (ℕ × α) keyLe := ⟨fun p q => Nat.le_total p.1 q.1⟩

instance {α : Type} : IsTrans (ℕ × α) keyLe := ⟨fun _ _ _ h h2 => Nat.le_trans h h2⟩

/-- `~index.duplicated(keep="first")`: keep each row whose timestamp has not
been seen earlier in the list. -/
def dedupKeysAux {α : Type} (seen : List ℕ) : List (ℕ × α) → List (ℕ × α)
  | [] => []
  | p :: l => if p.1 ∈ seen then dedupKeysAux seen l else p :: dedupKeysAux (p.1 :: seen) l

/-- Lines 150–152 of `analysis.py` under a stable tie order: concatenate the
per-file hourly chunks in file order, sort by timestamp keeping rows with
equal timestamps in input order, then drop duplicate timestamps keeping the
first.  `sort_index()` defaults to numpy quicksort, which is *not* stable, so
the program itself only guarantees *some* key-sorted permutation before the
de-duplication; `isMergeResult` below is that faithful envelope, and this
function is one admissible instance of it.  The pipeline theorems that use
this function depend only on tie-order-insensitive facts (which timestamps
survive, and their bounds). -/
def mergeChunks {α : Type} (cs : List (List (ℕ × α))) : List (ℕ × α) :=
  dedupKeysAux [] (List.insertionSort keyLe cs.flatten)

/-- What `sort_index()` may return for a given input: some permutation of it
that is sorted by timestamp.  The default sort's tie order among equal
timestamps is unspecified, so every key-sorted permutation is admissible. -/
def isKeySortResult {α : Type} (l s : List (ℕ × α)) : Prop :=
  s.Perm l ∧ List.Pairwise keyLe s

/-- The admissible results of lines 150–152 of `analysis.py` under the
unspecified tie order: de-duplicate (keeping the first row per timestamp)
some key-sorted permutation of the concatenated chunks. -/
def isMergeResult {α : Type} (cs : List (List (ℕ × α))) (out : List (ℕ × α)) : Prop :=
  ∃ s, isKeySortResult cs.flatten s ∧ out = dedupKeysAux [] s

/-- `load_station`: select/aggregate each file, merge, spike-filter with
window 24 and threshold 5.  An empty chunk list makes `pd.concat` raise
`ValueError: No objects to concatenate`, modelled by the `error` branch. -/
def loadStation (files : List (List (ℕ × ℚ))) : Except String (List (ℕ × Option ℚ)) :=
  if (files.filterMap fileToHourly).isEmpty then
    Except.error "No objects to concatenate"
  else
    Except.ok (removeSpikesSeries 24 5 (mergeChunks (files.filterMap fileToHourly)))

/-! ### Differencer (`compute_differential`) -/

/-- Column value of a series at timestamp `t` after aligning on the union of
the two indexes: `none` both for an absent row and for a missing value. -/
def lookupVal (s : List (ℕ × Option ℚ)) (t : ℕ) : Option ℚ :=
  match s.find? (fun p => p.1 == t) with
  | some p => p.2
  | none => none

/-- Keep the first occurrence of each natural number. -/
def dedupNatAux (seen : List ℕ) : List ℕ → List ℕ
  | [] => []
  | a :: l => if a ∈ seen then dedupNatAux seen l else a :: dedupNatAux (a :: seen) l

/-- The sorted union of the two series' timestamps (the index of
`pd.DataFrame({...})` built from two series). -/
def unionKeys (e f : List (ℕ × Option ℚ)) : List ℕ :=
  dedupNatAux [] (List.insertionSort (· ≤ ·) (e.map Prod.fst ++ f.map Prod.fst))

/-- `pd.DataFrame({"e": e, "f": f}).dropna()`: rows on the union index where
both stations have a present value. -/
def combined (e f : List (ℕ × Option ℚ)) : List (ℕ × ℚ × ℚ) :=
  (unionKeys e f).filterMap (fun t =>
    match lookupVal e t, lookupVal f t with
    | some v, some w => some (t, v, w)
    | _, _ => none)

/-- The differential column `-(depth_F - depth_E)` of the aligned frame. -/
def diffSeries (e f : List (ℕ × Option ℚ)) : List (ℕ × Option ℚ) :=
  (combined e f).map (fun r => (r.1, some (-(r.2.2 - r.2.1))))

/-- The hourly differential column of `compute_differential`: the aligned
differential re-filtered for spikes with window 24 and threshold 3.5. -/
def computeDifferentialHourly (e f : List (ℕ × Option ℚ)) : List (ℕ × Option ℚ) :=
  removeSpikesSeries 24 (7/2) (diffSeries e f)

/-- `combined.resample("1D").mean()` restricted to the differential column:
one bin per calendar day, each the mean of the day's present hourly values. -/
def resampleDaily (xs : List (ℕ × Option ℚ)) : List (ℕ × Option ℚ) :=
  if xs.isEmpty then []
  else
    (List.range (dayOfHour (maxKey xs) + 1 - dayOfHour (minKey xs))).map (fun k =>
      (dayOfHour (minKey xs) + k,
        meanOpt ((xs.filter (fun p =>
          dayOfHour p.1 = dayOfHour (minKey xs) + k)).filterMap Prod.snd)))

/-- The daily differential column returned by `compute_differential`. -/
def computeDifferentialDaily (e f : List (ℕ × Option ℚ)) : List (ℕ × Option ℚ) :=
  resampleDaily (computeDifferentialHourly e f)

/-! ### Threshold referencer (`plot_differential`, lines 243–262) -/

/-- `"2015-01-01"` as days since 1970, start of the pre-eruption slice. -/
def PRE_LO : ℕ := 16436

/-- `"2015-04-23"` as days since 1970, inclusive end of the pre-eruption
slice (pandas label slicing is inclusive). -/
def PRE_HI : ℕ := 16548

/-- `"2015-04-24"` as days since 1970, start of the post-eruption slice. -/
def POST_LO : ℕ := 16549

/-- `"2015-06-01"` as days since 1970, inclusive end of the post-eruption
slice. -/
def POST_HI : ℕ := 16587

/-- Label slicing `series[lo:hi]` on the daily index (inclusive bounds). -/
def sliceDays (lo hi : ℕ) (d : List (ℕ × Option ℚ)) : List (ℕ × Option ℚ) :=
  d.filter (fun p => decide (lo ≤ p.1) && decide (p.1 ≤ hi))

/-- The present (non-missing) values of a series. -/
def presentVals (d : List (ℕ × Option ℚ)) : List ℚ := d.filterMap Prod.snd

/-- Maximum of a list of rationals (`Series.max()` skips missing values and
is `NaN` when nothing remains). -/
def listMax : List ℚ → Option ℚ
  | [] => none
  | a :: l => some (l.foldl max a)

/-- Minimum of a list of rationals (`Series.min()` skips missing values). -/
def listMin : List ℚ → Option ℚ
  | [] => none
  | a :: l => some (l.foldl min a)

/-- `threshold_2015 = pre_eruption.max()`. -/
def threshold2015 (daily : List (ℕ × Option ℚ)) : Option ℚ :=
  listMax (presentVals (sliceDays PRE_LO PRE_HI daily))

/-- `uplift_referenced = uplift_daily - threshold_2015`. -/
def referencedSeries (daily : List (ℕ × Option ℚ)) (T : ℚ) : List (ℕ × Option ℚ) :=
  daily.map (fun p => (p.1, p.2.map (fun v => v - T)))

/-- `low_2015_ref = post_eruption.min()` (computed on the rebased series). -/
def low2015ref (daily : List (ℕ × Option ℚ)) : Option ℚ :=
  (threshold2015 daily).bind (fun T =>
    listMin (presentVals (sliceDays POST_LO POST_HI (referencedSeries daily T))))

/-- `deflation_magnitude = -low_2015_ref`. -/
def deflationMagnitude (daily : List (ℕ × Option ℚ)) : Option ℚ :=
  (low2015ref daily).map (fun L => -L)

/-- `current_value = uplift_referenced.iloc[-1]`: the last row's rebased
value. -/
def currentValue (daily : List (ℕ × Option ℚ)) : Option ℚ :=
  (threshold2015 daily).bind (fun T =>
    match daily.getLast? with
    | some p => p.2.map (fun v => v - T)
    | none => none)

/-! ### Generic list helper lemmas -/

theorem getD_map_range {β : Type} (f : ℕ → β) (d : β) {i n : ℕ} (h : i < n) :
    ((List.range n).map f).getD i d = f i := by
  simp [List.getElem?_map, List.getElem?_range h]

theorem zip_getD {α β : Type} :
    ∀ (l₁ : List α) (l₂ : List β) (i : ℕ) (d₁ : α) (d₂ : β),
      i < l₁.length → i < l₂.length →
      (l₁.zip l₂).getD i (d₁, d₂) = (l₁.getD i d₁, l₂.getD i d₂) := by
  intro l₁
  induction l₁ with
  | nil => intro l₂ i d₁ d₂ h₁ _; simp at h₁
  | cons a l₁ ih =>
    intro l₂ i d₁ d₂ h₁ h₂
    cases l₂ with
    | nil => simp at h₂
    | cons b l₂ =>
      cases i with
      | zero => rfl
      | succ i =>
        simp only [List.zip_cons_cons, List.getD_cons_succ]
        exact ih l₂ i d₁ d₂ (by simpa using h₁) (by simpa using h₂)

theorem find?_eq_head?_filter {α : Type} (p : α → Bool) :
    ∀ l : List α, l.find? p = (l.filter p).head? := by
  intro l
  induction l with
  | nil => rfl
  | cons a l ih =>
    cases h : p a
    · have hneg : ¬(p a = true) := by simp [h]
      rw [List.find?_cons_of_neg _ hneg, List.filter_cons, if_neg hneg]
      exact ih
    · rw [List.find?_cons_of_pos _ h, List.filter_cons, if_pos h]
      rfl

theorem dedupKeysAux_sublist {α : Type} :
    ∀ (l : List (ℕ × α)) (seen : List ℕ), List.Sublist (dedupKeysAux seen l) l := by
  intro l
  induction l with
  | nil => intro seen; simp [dedupKeysAux]
  | cons a l ih =>
    intro seen
    by_cases h : a.1 ∈ seen
    · simp only [dedupKeysAux, if_pos h]
      exact (ih seen).trans (List.sublist_cons_self a l)
    · simp only [dedupKeysAux, if_neg h]
      exact (ih (a.1 :: seen)).cons₂ a

theorem mem_dedupKeysAux {α : Type} (t : ℕ) (v : α) :
    ∀ (l : List (ℕ × α)) (seen : List ℕ),
      (t, v) ∈ dedupKeysAux seen l ↔ t ∉ seen ∧ l.find? (fun p => p.1 == t) = some (t, v) := by
  intro l
  induction l with
  | nil => intro seen; simp [dedupKeysAux]
  | cons a l ih =>
    intro seen
    by_cases hat : a.1 = t
    · have hfind : (a :: l).find? (fun p => p.1 == t) = some a :=
        List.find?_cons_of_pos _ (by simp [hat])
      rw [hfind]
      by_cases h : a.1 ∈ seen
      · simp only [dedupKeysAux, if_pos h, ih]
        constructor
        · rintro ⟨hns, -⟩; exact absurd (hat ▸ h) hns
        · rintro ⟨hns, -⟩; exact absurd (hat ▸ h) hns
      · simp only [dedupKeysAux, if_neg h, List.mem_cons, ih]
        constructor
        · rintro (heq | ⟨hns, -⟩)
          · exact ⟨hat ▸ h, congrArg some heq.symm⟩
          · exact absurd (by simp [hat]) hns
        · rintro ⟨-, heq⟩
          exact Or.inl (Option.some.inj heq).symm
    · have hfind : (a :: l).find? (fun p => p.1 == t) = l.find? (fun p => p.1 == t) :=
        List.find?_cons_of_neg _ (by simp [hat])
      rw [hfind]
      by_cases h : a.1 ∈ seen
      · simp only [dedupKeysAux, if_pos h]
        exact ih seen
      · simp only [dedupKeysAux, if_neg h, List.mem_cons, ih]
        constructor
        · rintro (heq | ⟨hns, hf⟩)
          · exact absurd (congrArg Prod.fst heq).symm hat
          · exact ⟨fun hm => hns (Or.inr hm), hf⟩
        · rintro ⟨hns, hf⟩
          refine Or.inr ⟨?_, hf⟩
          rintro (h1 | h2)
          · exact hat h1.symm
          · exact hns h2

theorem mem_dedupNatAux (t : ℕ) :
    ∀ (l : List ℕ) (seen : List ℕ),
      t ∈ dedupNatAux seen l ↔ t ∉ seen ∧ t ∈ l := by
  intro l
  induction l with
  | nil => intro seen; simp [dedupNatAux]
  | cons a l ih =>
    intro seen
    by_cases h : a ∈ seen
    · simp only [dedupNatAux, if_pos h, ih, List.mem_cons]
      constructor
      · rintro ⟨hns, hm⟩; exact ⟨hns, Or.inr hm⟩
      · rintro ⟨hns, rfl | hm⟩
        · exact absurd h hns
        · exact ⟨hns, hm⟩
    · simp only [dedupNatAux, if_neg h, List.mem_cons, ih, List.mem_cons]
      constructor
      · rintro (rfl | ⟨hns, hm⟩)
        · exact ⟨h, Or.inl rfl⟩
        · exact ⟨fun hs => hns (Or.inr hs), Or.inr hm⟩
      · rintro ⟨hns, rfl | hm⟩
        · exact Or.inl rfl
        · by_cases hta : t = a
          · exact Or.inl hta
          · exact Or.inr ⟨by simp [hns, hta], hm⟩

theorem filter_orderedInsert_key {α : Type} (t : ℕ) (a : ℕ × α) :
    ∀ l : List (ℕ × α),
      (List.orderedInsert keyLe a l).filter (fun p => p.1 == t)
        = ((a :: l).filter (fun p => p.1 == t)) := by
  intro l
  induction l with
  | nil => rfl
  | cons b l ih =>
    by_cases hab : keyLe a b
    · simp [List.orderedInsert, if_pos hab]
    · simp only [List.orderedInsert, if_neg hab]
      have hlt : b.1 < a.1 := Nat.lt_of_not_le hab
      by_cases hpa : a.1 = t
      · have hpb : (b.1 == t) = false := by
          simp only [beq_eq_false_iff_ne, ne_eq]
          omega
        simp [List.filter_cons, hpa, hpb, ih]
      · have hpa' : (a.1 == t) = false := by simpa using hpa
        simp [List.filter_cons, hpa', ih]

theorem filter_insertionSort_key {α : Type} (t : ℕ) (l : List (ℕ × α)) :
    (List.insertionSort keyLe l).filter (fun p => p.1 == t)
      = l.filter (fun p => p.1 == t) := by
  induction l with
  | nil => rfl
  | cons a l ih =>
    simp only [List.insertionSort, filter_orderedInsert_key, List.filter_cons, ih]

theorem le_foldl_minKey {α : Type} (A : ℕ) :
    ∀ (r : List (ℕ × α)) (a : ℕ), A ≤ a → (∀ q ∈ r, A ≤ q.1) →
      A ≤ r.foldl (fun x q => min x q.1) a := by
  intro r
  induction r with
  | nil => intro a ha _; exact ha
  | cons b r ih =>
    intro a ha hr
    simp only [List.foldl_cons]
    exact ih _ (le_min ha (hr b (by simp))) (fun q hq => hr q (by simp [hq]))

theorem foldl_maxKey_le {α : Type} (B : ℕ) :
    ∀ (r : List (ℕ × α)) (a : ℕ), a ≤ B → (∀ q ∈ r, q.1 ≤ B) →
      r.foldl (fun x q => max x q.1) a ≤ B := by
  intro r
  induction r with
  | nil => intro a ha _; exact ha
  | cons b r ih =>
    intro a ha hr
    simp only [List.foldl_cons]
    exact ih _ (max_le ha (hr b (by simp))) (fun q hq => hr q (by simp [hq]))

theorem le_minKey {α : Type} {A : ℕ} {xs : List (ℕ × α)} (hne : xs ≠ [])
    (h : ∀ p ∈ xs, A ≤ p.1) : A ≤ minKey xs := by
  cases xs with
  | nil => exact absurd rfl hne
  | cons p r =>
    exact le_foldl_minKey A r p.1 (h p (by simp)) (fun q hq => h q (by simp [hq]))

theorem maxKey_le {α : Type} {B : ℕ} {xs : List (ℕ × α)} (hne : xs ≠ [])
    (h : ∀ p ∈ xs, p.1 ≤ B) : maxKey xs ≤ B := by
  cases xs with
  | nil => exact absurd rfl hne
  | cons p r =>
    exact foldl_maxKey_le B r p.1 (h p (by simp)) (fun q hq => h q (by simp [hq]))

/-! ### Median lemmas -/

theorem sortRat_perm (l : List ℚ) : (sortRat l).Perm l := List.perm_insertionSort _ l

theorem sortRat_sorted (l : List ℚ) : List.Sorted (· ≤ ·) (sortRat l) :=
  List.sorted_insertionSort _ l

theorem sortRat_length (l : List ℚ) : (sortRat l).length = l.length :=
  (sortRat_perm l).length_eq

theorem sortRat_eq_of_sorted {l s : List ℚ} (hp : l.Perm s)
    (hs : List.Sorted (· ≤ ·) s) : sortRat l = s :=
  List.eq_of_perm_of_sorted ((sortRat_perm l).trans hp) (sortRat_sorted l) hs

theorem sortRat_replicate (n : ℕ) (c : ℚ) :
    sortRat (List.replicate n c) = List.replicate n c :=
  sortRat_eq_of_sorted (List.Perm.refl _)
    (List.pairwise_replicate.mpr (Or.inr le_rfl))

theorem median_replicate {n : ℕ} (hn : 1 ≤ n) (c : ℚ) :
    median (List.replicate n c) = some c := by
  unfold median
  rw [sortRat_replicate]
  simp only [List.length_replicate]
  by_cases hpar : n % 2 = 1
  · rw [if_pos hpar, List.getElem?_replicate_of_lt (by omega)]
  · rw [if_neg hpar,
      List.getElem?_replicate_of_lt (show n / 2 - 1 < n by omega),
      List.getElem?_replicate_of_lt (show n / 2 < n by omega)]
    simp [add_self_div_two]

theorem median_isSome {l : List ℚ} (h : l ≠ []) : (median l).isSome := by
  unfold median
  have hlen : 0 < l.length := List.length_pos.mpr h
  by_cases hpar : l.length % 2 = 1
  · rw [if_pos hpar]
    have hb : l.length / 2 < (sortRat l).length := by rw [sortRat_length]; omega
    simp [List.getElem?_eq_getElem hb]
  · rw [if_neg hpar]
    have ha : l.length / 2 - 1 < (sortRat l).length := by rw [sortRat_length]; omega
    have hb : l.length / 2 < (sortRat l).length := by rw [sortRat_length]; omega
    simp [List.getElem?_eq_getElem ha, List.getElem?_eq_getElem hb]

theorem countP_ne_eq_zero {l : List ℚ} {c : ℚ}
    (h : l.countP (fun a => decide (a ≠ c)) = 0) :
    l = List.replicate l.length c := by
  apply List.eq_replicate_of_mem
  intro b hb
  have := List.countP_eq_zero.mp h b hb
  simpa using this

theorem perm_single_of_countP_eq_one {c : ℚ} :
    ∀ {l : List ℚ}, l.countP (fun a => decide (a ≠ c)) = 1 →
      ∃ x, x ≠ c ∧ l.Perm (x :: List.replicate (l.length - 1) c) := by
  intro l
  induction l with
  | nil => intro h; simp [List.countP_nil] at h
  | cons a l ih =>
    intro h
    by_cases hac : a = c
    · subst hac
      rw [List.countP_cons_of_neg (fun x => decide (x ≠ a)) l (by simp)] at h
      have hcount := h
      obtain ⟨x, hx, hperm⟩ := ih hcount
      have hne : l ≠ [] := by
        intro hnil
        rw [hnil] at hcount
        simp [List.countP_nil] at hcount
      have hlpos : 1 ≤ l.length := by
        cases l
        · exact absurd rfl hne
        · simp
      refine ⟨x, hx, ?_⟩
      have step1 : (a :: l).Perm (a :: (x :: List.replicate (l.length - 1) a)) :=
        List.Perm.cons a hperm
      have step2 : (a :: (x :: List.replicate (l.length - 1) a)).Perm
          (x :: (a :: List.replicate (l.length - 1) a)) := List.Perm.swap x a _
      have step3 : a :: List.replicate (l.length - 1) a = List.replicate l.length a := by
        rw [← List.replicate_succ]
        congr 1
        omega
      have hfin : (a :: l).Perm (x :: List.replicate l.length a) := by
        refine step1.trans (step2.trans ?_)
        rw [step3]
      simpa using hfin
    · rw [List.countP_cons_of_pos (fun x => decide (x ≠ c)) l (by simp [hac])] at h
      have hcount : l.countP (fun x => decide (x ≠ c)) = 0 := by omega
      have hrep := countP_ne_eq_zero hcount
      refine ⟨a, hac, ?_⟩
      have : l.Perm (List.replicate l.length c) := hrep ▸ List.Perm.refl l
      simpa using List.Perm.cons a this

theorem getElem?_cons_replicate {x c : ℚ} {j k : ℕ} (h1 : 1 ≤ j) (h2 : j ≤ k) :
    (x :: List.replicate k c)[j]? = some c := by
  rcases j with _ | j
  · omega
  · rw [List.getElem?_cons_succ, List.getElem?_replicate_of_lt (by omega)]

theorem getElem?_replicate_append {x c : ℚ} {j k : ℕ} (h : j < k) :
    (List.replicate k c ++ [x])[j]? = some c := by
  rw [List.getElem?_append_left (by simpa using h), List.getElem?_replicate_of_lt h]

theorem median_near_const {l : List ℚ} {c : ℚ} (hlen : 3 ≤ l.length)
    (h : l.countP (fun a => decide (a ≠ c)) ≤ 1) : median l = some c := by
  rcases Nat.le_one_iff_eq_zero_or_eq_one.mp h with h0 | h1
  · rw [countP_ne_eq_zero h0]
    exact median_replicate (by omega) c
  · obtain ⟨x, hx, hperm⟩ := perm_single_of_countP_eq_one h1
    rcases le_total x c with hxc | hcx
    · have hsorted : List.Sorted (· ≤ ·) (x :: List.replicate (l.length - 1) c) := by
        rw [List.sorted_cons]
        refine ⟨fun b hb => ?_, List.pairwise_replicate.mpr (Or.inr le_rfl)⟩
        rw [List.eq_of_mem_replicate hb]
        exact hxc
      have hs : sortRat l = x :: List.replicate (l.length - 1) c :=
        sortRat_eq_of_sorted hperm hsorted
      unfold median
      rw [hs]
      by_cases hpar : l.length % 2 = 1
      · rw [if_pos hpar, getElem?_cons_replicate (by omega) (by omega)]
      · rw [if_neg hpar, getElem?_cons_replicate (by omega) (by omega),
          getElem?_cons_replicate (by omega) (by omega)]
        simp [add_self_div_two]
    · have hsorted : List.Sorted (· ≤ ·) (List.replicate (l.length - 1) c ++ [x]) := by
        refine List.pairwise_append.mpr
          ⟨List.pairwise_replicate.mpr (Or.inr le_rfl), List.pairwise_singleton _ x,
            fun b hb y hy => ?_⟩
        rw [List.eq_of_mem_replicate hb, List.mem_singleton.mp hy]
        exact hcx
      have hperm2 : l.Perm (List.replicate (l.length - 1) c ++ [x]) :=
        hperm.trans (List.perm_append_singleton x _).symm
      have hs : sortRat l = List.replicate (l.length - 1) c ++ [x] :=
        sortRat_eq_of_sorted hperm2 hsorted
      unfold median
      rw [hs]
      by_cases hpar : l.length % 2 = 1
      · rw [if_pos hpar, getElem?_replicate_append (by omega)]
      · rw [if_neg hpar, getElem?_replicate_append (by omega),
          getElem?_replicate_append (by omega)]
        simp [add_self_div_two]

/-! ### Rolling-window and spike-filter lemmas -/

theorem length_rollingMedian (w : ℕ) (xs : List (Option ℚ)) :
    (rollingMedian w xs).length = xs.length := by simp [rollingMedian]

theorem length_deviationList (w : ℕ) (xs : List (Option ℚ)) :
    (deviationList w xs).length = xs.length := by simp [deviationList]

theorem length_removeSpikesVals (w : ℕ) (thr : ℚ) (xs : List (Option ℚ)) :
    (removeSpikesVals w thr xs).length = xs.length := by simp [removeSpikesVals]

theorem removeSpikesSeries_keys (w : ℕ) (thr : ℚ) (s : List (ℕ × Option ℚ)) :
    (removeSpikesSeries w thr s).map Prod.fst = s.map Prod.fst := by
  rw [removeSpikesSeries, List.map_fst_zip]
  rw [length_removeSpikesVals]
  simp

theorem take_replicate_list {α : Type} (a : α) :
    ∀ (k m : ℕ), (List.replicate m a).take k = List.replicate (min k m) a := by
  intro k
  induction k with
  | zero => intro m; simp
  | succ k ih =>
    intro m
    cases m with
    | zero => simp
    | succ m => simp [List.replicate_succ, List.take_succ_cons, ih, Nat.succ_min_succ]

theorem drop_replicate_list {α : Type} (a : α) :
    ∀ (k m : ℕ), (List.replicate m a).drop k = List.replicate (m - k) a := by
  intro k
  induction k with
  | zero => intro m; simp
  | succ k ih =>
    intro m
    cases m with
    | zero => simp
    | succ m => simp [List.replicate_succ, List.drop_succ_cons, ih]

theorem filterMap_id_replicate_some (k : ℕ) (c : ℚ) :
    (List.replicate k (some c)).filterMap id = List.replicate k c := by
  induction k with
  | zero => rfl
  | succ k ih => simp [List.replicate_succ, List.filterMap_cons, ih]

theorem windowVals_replicate (w n i : ℕ) (c : ℚ) :
    windowVals w (List.replicate n (some c)) i
      = List.replicate (min (rollWinLen w i) (n - rollWinLo w i)) c := by
  rw [windowVals, drop_replicate_list, take_replicate_list, filterMap_id_replicate_some]

theorem one_le_windowSize {w n i : ℕ} (hi : i < n) :
    1 ≤ min (rollWinLen w i) (n - rollWinLo w i) := by
  unfold rollWinLen rollWinLo
  generalize (w - 1) / 2 = b
  generalize w - 1 - b = a
  omega

theorem rollingMedian_replicate (w n : ℕ) (c : ℚ) :
    rollingMedian w (List.replicate n (some c)) = List.replicate n (some c) := by
  apply List.ext_getElem?
  intro i
  by_cases hi : i < n
  · rw [rollingMedian]
    simp only [List.length_replicate]
    rw [List.getElem?_map, List.getElem?_range hi, List.getElem?_replicate_of_lt hi]
    simp only [Option.map_some']
    rw [windowVals_replicate, median_replicate (one_le_windowSize hi) c]
  · have h1 : n ≤ i := by omega
    rw [List.getElem?_eq_none (by simpa [rollingMedian] using h1),
      List.getElem?_eq_none (by simpa using h1)]

theorem getD_replicate {α : Type} (a d : α) {i n : ℕ} (hi : i < n) :
    (List.replicate n a).getD i d = a := by
  simp [List.getD_eq_getElem?_getD, List.getElem?_replicate_of_lt hi]

theorem deviationList_replicate (w n : ℕ) (c : ℚ) :
    deviationList w (List.replicate n (some c)) = List.replicate n (some 0) := by
  apply List.ext_getElem?
  intro i
  by_cases hi : i < n
  · rw [deviationList]
    simp only [List.length_replicate]
    rw [List.getElem?_map, List.getElem?_range hi, List.getElem?_replicate_of_lt hi]
    simp only [Option.map_some']
    rw [rollingMedian_replicate, getD_replicate _ _ hi]
    simp
  · have h1 : n ≤ i := by omega
    rw [List.getElem?_eq_none (by simpa [deviationList] using h1),
      List.getElem?_eq_none (by simpa using h1)]

theorem removeSpikesVals_replicate (w : ℕ) (thr : ℚ) (n : ℕ) (c : ℚ) :
    removeSpikesVals w thr (List.replicate n (some c)) = List.replicate n (some c) := by
  apply List.ext_getElem?
  intro i
  by_cases hi : i < n
  · rw [removeSpikesVals]
    simp only [List.length_replicate]
    rw [List.getElem?_map, List.getElem?_range hi, List.getElem?_replicate_of_lt hi]
    simp only [Option.map_some']
    rw [deviationList_replicate, rollingMedian_replicate, getD_replicate _ _ hi]
    simp [List.getD_eq_getElem?_getD, List.getElem?_replicate_of_lt hi]
  · have h1 : n ≤ i := by omega
    rw [List.getElem?_eq_none (by simpa [removeSpikesVals] using h1),
      List.getElem?_eq_none (by simpa using h1)]

theorem zip_replicate_right {α β : Type} (b : β) :
    ∀ l : List α, l.zip (List.replicate l.length b) = l.map (fun a => (a, b)) := by
  intro l
  induction l with
  | nil => rfl
  | cons a l ih => simp [List.replicate_succ, ih]

theorem removeSpikesSeries_const (w : ℕ) (thr : ℚ) (ts : List ℕ) (c : ℚ) :
    removeSpikesSeries w thr (ts.map (fun t => (t, some c)))
      = ts.map (fun t => (t, some c)) := by
  rw [removeSpikesSeries]
  have h1 : (ts.map (fun t => (t, some c))).map Prod.fst = ts := by
    rw [List.map_map]
    exact List.map_id ts
  have h2 : (ts.map (fun t => (t, some c))).map Prod.snd
      = List.replicate ts.length (some c) := by
    rw [List.map_map]
    exact List.map_const' ts (some c)
  rw [h1, h2, removeSpikesVals_replicate]
  have h3 : ts.length = (ts.map (fun t => (t, some c))).length := by simp
  calc ts.zip (List.replicate ts.length (some c))
      = ts.map (fun t => (t, some c)) := zip_replicate_right _ ts

/-! ### Spike filter on a constant series with one outlier -/

theorem filterMap_some_eq_map {α β : Type} (g : α → β) :
    ∀ l : List α, l.filterMap (fun a => some (g a)) = l.map g := by
  intro l
  induction l with
  | nil => rfl
  | cons a l ih => simp [List.filterMap_cons, ih]

theorem windowVals_map_range (w n i : ℕ) (g : ℕ → ℚ) :
    windowVals w ((List.range n).map (fun j => some (g j))) i
      = ((((List.range n).drop (rollWinLo w i)).take (rollWinLen w i))).map g := by
  rw [windowVals, ← List.map_drop, ← List.map_take, List.filterMap_map]
  exact filterMap_some_eq_map g _

theorem windowIdx_nodup (w n i : ℕ) :
    ((((List.range n).drop (rollWinLo w i)).take (rollWinLen w i))).Nodup :=
  ((List.take_sublist _ _).trans (List.drop_sublist _ _)).nodup (List.nodup_range n)

theorem windowIdx_length (w n i : ℕ) :
    ((((List.range n).drop (rollWinLo w i)).take (rollWinLen w i))).length
      = min (rollWinLen w i) (n - rollWinLo w i) := by
  simp [List.length_take, List.length_drop]

theorem three_le_windowSize24 {n i : ℕ} (hi : i < n) (hn : 3 ≤ n) :
    3 ≤ min (rollWinLen 24 i) (n - rollWinLo 24 i) := by
  unfold rollWinLen rollWinLo
  omega

theorem countP_window_single {n i p : ℕ} {c : ℚ} {g : ℕ → ℚ}
    (hg : ∀ j, j ≠ p → g j = c) :
    (((((List.range n).drop (rollWinLo 24 i)).take (rollWinLen 24 i))).map g).countP
      (fun a => decide (a ≠ c)) ≤ 1 := by
  rw [List.countP_map]
  have hmono :
      ((((List.range n).drop (rollWinLo 24 i)).take (rollWinLen 24 i))).countP
          ((fun a => decide (a ≠ c)) ∘ g)
        ≤ ((((List.range n).drop (rollWinLo 24 i)).take (rollWinLen 24 i))).countP
            (fun j => j == p) := by
    apply List.countP_mono_left
    intro j _ hj
    simp only [Function.comp, decide_eq_true_eq] at hj
    have : j = p := by
      by_contra hc
      exact hj (hg j hc)
    simp [this]
  refine hmono.trans ?_
  have := List.nodup_iff_count_le_one.mp (windowIdx_nodup 24 n i) p
  simpa [List.count_eq_countP] using this

theorem rollingMedian_single_outlier {n p : ℕ} {c v : ℚ} (hp : p < n) (hn : 3 ≤ n) :
    rollingMedian 24 ((List.range n).map (fun j => some (if j = p then v else c)))
      = List.replicate n (some c) := by
  apply List.ext_getElem?
  intro i
  by_cases hi : i < n
  · rw [rollingMedian]
    simp only [List.length_map, List.length_range]
    rw [List.getElem?_map, List.getElem?_range hi, List.getElem?_replicate_of_lt hi]
    simp only [Option.map_some']
    congr 1
    rw [windowVals_map_range]
    apply median_near_const
    · rw [List.length_map, windowIdx_length]
      exact three_le_windowSize24 hi hn
    · exact countP_window_single (fun j hj => if_neg hj)
  · have h1 : n ≤ i := by omega
    rw [List.getElem?_eq_none (by simpa [rollingMedian] using h1),
      List.getElem?_eq_none (by simpa using h1)]

theorem deviationList_single_outlier {n p : ℕ} {c v : ℚ} (hp : p < n) (hn : 3 ≤ n) :
    deviationList 24 ((List.range n).map (fun j => some (if j = p then v else c)))
      = (List.range n).map (fun j => some (if j = p then |v - c| else 0)) := by
  apply List.ext_getElem?
  intro i
  by_cases hi : i < n
  · rw [deviationList]
    simp only [List.length_map, List.length_range]
    rw [List.getElem?_map, List.getElem?_range hi, List.getElem?_map, List.getElem?_range hi]
    simp only [Option.map_some']
    have h1 : ((List.range n).map (fun j => some (if j = p then v else c))).getD i none
        = some (if i = p then v else c) := getD_map_range _ _ hi
    rw [h1, rollingMedian_single_outlier hp hn, getD_replicate _ _ hi]
    by_cases hip : i = p
    · simp [hip]
    · simp [hip]
  · have h1 : n ≤ i := by omega
    rw [List.getElem?_eq_none (by simpa [deviationList] using h1),
      List.getElem?_eq_none (by simpa using h1)]

theorem rollingMedianDev_single_outlier {n p : ℕ} {c v : ℚ} (hp : p < n) (hn : 3 ≤ n) :
    (rollingMedian 24
        ((List.range n).map (fun j => some (if j = p then |v - c| else 0)))).getD p none
      = some 0 := by
  rw [rollingMedian]
  simp only [List.length_map, List.length_range]
  rw [getD_map_range _ _ hp, windowVals_map_range]
  apply median_near_const
  · rw [List.length_map, windowIdx_length]
    exact three_le_windowSize24 hp hn
  · exact countP_window_single (fun j hj => if_neg hj)

theorem removeSpikesVals_single_outlier (thr : ℚ) {n p : ℕ} {c v : ℚ}
    (hp : p < n) (hn : 3 ≤ n) (hv : v ≠ c) :
    (removeSpikesVals 24 thr
        ((List.range n).map (fun j => if j = p then some v else some c))).getD p (some 0)
      = none := by
  have hxs : (List.range n).map (fun j => if j = p then some v else some c)
      = (List.range n).map (fun j => some (if j = p then v else c)) := by
    apply List.map_congr_left
    intro j _
    exact (apply_ite some (j = p) v c).symm
  rw [hxs, removeSpikesVals]
  simp only [List.length_map, List.length_range]
  rw [getD_map_range _ _ hp, deviationList_single_outlier hp hn,
    getD_map_range _ _ hp, rollingMedianDev_single_outlier hp hn]
  simp only [if_pos rfl]
  have hpos : thr * (madScale * 0) < |v - c| := by
    rw [mul_zero, mul_zero]
    exact abs_pos.mpr (sub_ne_zero.mpr hv)
  simp only [hpos, if_true]

/-! ### Alignment lemmas -/

theorem mem_unionKeys {e f : List (ℕ × Option ℚ)} {t : ℕ} :
    t ∈ unionKeys e f ↔ t ∈ e.map Prod.fst ++ f.map Prod.fst := by
  rw [unionKeys, mem_dedupNatAux]
  simp [(List.perm_insertionSort (· ≤ ·) _).mem_iff]

theorem find?_key_of_mem {α : Type} :
    ∀ {s : List (ℕ × α)}, (s.map Prod.fst).Nodup → ∀ {t : ℕ} {x : α}, (t, x) ∈ s →
      s.find? (fun p => p.1 == t) = some (t, x) := by
  intro s
  induction s with
  | nil => intro _ t x hm; simp at hm
  | cons a l ih =>
    intro hns t x hm
    have hmap : (a.1 :: l.map Prod.fst).Nodup := by simpa using hns
    have hns1 : a.1 ∉ l.map Prod.fst := (List.nodup_cons.mp hmap).1
    have hns2 : (l.map Prod.fst).Nodup := (List.nodup_cons.mp hmap).2
    rcases List.mem_cons.mp hm with rfl | hm'
    · exact List.find?_cons_of_pos _ (by simp)
    · have hat : ¬((fun p : ℕ × α => p.1 == t) a) = true := by
        simp only [beq_iff_eq]
        intro he
        exact hns1 (he ▸ List.mem_map_of_mem Prod.fst hm')
      rw [List.find?_cons_of_neg l hat]
      exact ih hns2 hm'

theorem lookupVal_eq_some_iff {s : List (ℕ × Option ℚ)}
    (hns : (s.map Prod.fst).Nodup) {t : ℕ} {v : ℚ} :
    lookupVal s t = some v ↔ (t, some v) ∈ s := by
  constructor
  · intro h
    rw [lookupVal] at h
    rcases hf : s.find? (fun p => p.1 == t) with _ | p
    · rw [hf] at h; simp at h
    · rw [hf] at h
      have hkey : p.1 = t := by simpa using List.find?_some hf
      have hmem : p ∈ s := List.mem_of_find?_eq_some hf
      have : p = (t, some v) := by
        cases p
        simp only at h hkey
        rw [hkey, h]
      exact this ▸ hmem
  · intro h
    rw [lookupVal, find?_key_of_mem hns h]

/-! ### C4 and its witness -/

/-- C4: the aligned pair produced by `compute_differential` (alignment on the
union index followed by `dropna`) contains exactly the timestamps at which
both stations have a present, non-missing value. -/
theorem aligned_pair_inner_join (e f : List (ℕ × Option ℚ))
    (he : (e.map Prod.fst).Nodup) (hf : (f.map Prod.fst).Nodup) (t : ℕ) :
    t ∈ (combined e f).map Prod.fst
      ↔ (∃ v, (t, some v) ∈ e) ∧ (∃ w, (t, some w) ∈ f) := by
  constructor
  · intro ht
    rcases List.mem_map.mp ht with ⟨r, hr, hrt⟩
    rcases List.mem_filterMap.mp hr with ⟨u, hu, hm⟩
    rcases hle : lookupVal e u with _ | v
    · rw [combined] at *
      rw [hle] at hm
      simp at hm
    · rcases hlf : lookupVal f u with _ | w
      · rw [hle, hlf] at hm
        simp at hm
      · rw [hle, hlf] at hm
        have hr' : r = (u, v, w) := by
          have := Option.some.inj hm
          exact this.symm
        have hut : u = t := by
          rw [hr'] at hrt
          exact hrt
        subst hut
        exact ⟨⟨v, (lookupVal_eq_some_iff he).mp hle⟩,
          ⟨w, (lookupVal_eq_some_iff hf).mp hlf⟩⟩
  · rintro ⟨⟨v, hv⟩, ⟨w, hw⟩⟩
    have hle := (lookupVal_eq_some_iff he).mpr hv
    have hlf := (lookupVal_eq_some_iff hf).mpr hw
    apply List.mem_map.mpr
    refine ⟨(t, v, w), ?_, rfl⟩
    apply List.mem_filterMap.mpr
    refine ⟨t, ?_, by rw [hle, hlf]⟩
    exact mem_unionKeys.mpr
      (List.mem_append.mpr (Or.inl (List.mem_map_of_mem Prod.fst hv)))

/-- Witness for C4 at the spec's concrete instance: stations with timestamps
{1,2,3} and {2,3,4} align exactly on {2,3}. -/
theorem aligned_pair_inner_join_witness :
    (([(1, some (10:ℚ)), (2, some 20), (3, some 30)].map Prod.fst).Nodup)
    ∧ (([(2, some (5:ℚ)), (3, some 6), (4, some 7)].map Prod.fst).Nodup)
    ∧ ((combined [(1, some (10:ℚ)), (2, some 20), (3, some 30)]
          [(2, some (5:ℚ)), (3, some 6), (4, some 7)]).map Prod.fst = [2, 3])
    ∧ (2 ∈ (combined [(1, some (10:ℚ)), (2, some 20), (3, some 30)]
          [(2, some (5:ℚ)), (3, some 6), (4, some 7)]).map Prod.fst
        ↔ (∃ v, (2, some v) ∈ [(1, some (10:ℚ)), (2, some 20), (3, some 30)])
          ∧ (∃ w, (2, some w) ∈ [(2, some (5:ℚ)), (3, some 6), (4, some 7)])) :=
  ⟨by decide, by decide, by decide,
   aligned_pair_inner_join _ _ (by decide) (by decide) 2⟩

/-! ### C5 and its witness -/

theorem combined_self_eq (s : List (ℕ × Option ℚ)) :
    ∀ r ∈ combined s s, r.2.2 = r.2.1 := by
  intro r hr
  rcases List.mem_filterMap.mp hr with ⟨t, _, hm⟩
  rcases hl : lookupVal s t with _ | v
  · rw [hl] at hm
    simp at hm
  · rw [hl] at hm
    have : (t, v, v) = r := Option.some.inj hm
    rw [← this]

theorem diffSeries_self (s : List (ℕ × Option ℚ)) :
    diffSeries s s = ((combined s s).map Prod.fst).map (fun t => (t, some 0)) := by
  rw [diffSeries, List.map_map]
  apply List.map_congr_left
  intro r hr
  have h := combined_self_eq s r hr
  simp [Function.comp, h]

/-- C5: running the differencer on an identical pair yields a differential
that is exactly `0` at every aligned timestamp, also after the second
spike-filter pass (window 24, threshold 3.5). -/
theorem identical_inputs_zero_differential (s : List (ℕ × Option ℚ)) (t : ℕ) (o : Option ℚ) :
    (t, o) ∈ computeDifferentialHourly s s → o = some 0 := by
  intro hmem
  rw [computeDifferentialHourly, diffSeries_self, removeSpikesSeries_const] at hmem
  rcases List.mem_map.mp hmem with ⟨u, _, heq⟩
  cases heq
  rfl

/-- Witness for C5 on the one-point series `[(0, 1)]`. -/
theorem identical_inputs_zero_differential_witness :
    ((0, some (0:ℚ)) ∈ computeDifferentialHourly [(0, some 1)] [(0, some 1)])
    ∧ some (0:ℚ) = some 0 := by
  have h1 : diffSeries [(0, some (1:ℚ))] [(0, some 1)] = [(0, some 0)] := by
    rw [diffSeries_self]
    decide
  have h2 : computeDifferentialHourly [(0, some (1:ℚ))] [(0, some 1)] = [(0, some 0)] := by
    rw [computeDifferentialHourly, h1]
    have h3 : [((0:ℕ), some (0:ℚ))] = [(0:ℕ)].map (fun t => (t, some (0:ℚ))) := rfl
    rw [h3, removeSpikesSeries_const]
  constructor
  · rw [h2]
    exact List.mem_singleton.mpr rfl
  · exact identical_inputs_zero_differential [(0, some 1)] 0 (some 0)
      (by rw [h2]; exact List.mem_singleton.mpr rfl)

/-! ### C6 and its witness -/

/-- C6: on a constant series the spike filter flags nothing at any threshold
`≥ 0` (for any window); on a series that is constant except at one position
(with at least 3 samples, at the station window 24), the deviating value is
flagged — the local MAD is zero there, so any nonzero deviation exceeds the
bound. -/
theorem spike_filter_boundary (c v thr : ℚ) (hthr : 0 ≤ thr) :
    (∀ (ts : List ℕ) (w : ℕ),
        removeSpikesSeries w thr (ts.map (fun t => (t, some c)))
          = ts.map (fun t => (t, some c)))
    ∧ (∀ n p : ℕ, p < n → 3 ≤ n → v ≠ c →
        (removeSpikesVals 24 thr
            ((List.range n).map (fun j => if j = p then some v else some c))).getD p (some 0)
          = none) :=
  ⟨fun ts w => removeSpikesSeries_const w thr ts c,
   fun _ _ hp hn hv => removeSpikesVals_single_outlier thr hp hn hv⟩

/-- Witness for C6: a constant series of three samples is untouched, and a
series `[2, 9, 2]` has its middle value flagged at threshold 5. -/
theorem spike_filter_boundary_witness :
    (0 : ℚ) ≤ 5
    ∧ removeSpikesSeries 24 5 ([0, 1, 2].map (fun t => (t, some (2 : ℚ))))
        = [0, 1, 2].map (fun t => (t, some (2 : ℚ)))
    ∧ (removeSpikesVals 24 5
          ((List.range 3).map (fun j => if j = 1 then some (9 : ℚ) else some 2))).getD 1 (some 0)
        = none :=
  ⟨by norm_num,
   (spike_filter_boundary 2 9 5 (by norm_num)).1 [0, 1, 2] 24,
   (spike_filter_boundary 2 9 5 (by norm_num)).2 3 1 (by decide) (by decide) (by norm_num)⟩

/-! ### C3 and supporting lemmas -/

theorem dedupKeysAux_keys_nodup {α : Type} :
    ∀ (l : List (ℕ × α)) (seen : List ℕ),
      ((dedupKeysAux seen l).map Prod.fst).Nodup
      ∧ ∀ t ∈ (dedupKeysAux seen l).map Prod.fst, t ∉ seen := by
  intro l
  induction l with
  | nil => intro seen; simp [dedupKeysAux]
  | cons a l ih =>
    intro seen
    by_cases h : a.1 ∈ seen
    · simpa [dedupKeysAux, h] using ih seen
    · simp only [dedupKeysAux, if_neg h, List.map_cons]
      obtain ⟨ih1, ih2⟩ := ih (a.1 :: seen)
      constructor
      · rw [List.nodup_cons]
        refine ⟨fun hm => ?_, ih1⟩
        exact (ih2 _ hm) (List.mem_cons_self a.1 seen)
      · intro t ht
        rcases List.mem_cons.mp ht with rfl | ht'
        · exact h
        · exact fun hs => (ih2 t ht') (List.mem_cons.mpr (Or.inr hs))

theorem mem_keys_dedupKeysAux {α : Type} (t : ℕ) :
    ∀ (l : List (ℕ × α)) (seen : List ℕ),
      t ∈ (dedupKeysAux seen l).map Prod.fst ↔ t ∉ seen ∧ t ∈ l.map Prod.fst := by
  intro l
  induction l with
  | nil => intro seen; simp [dedupKeysAux]
  | cons a l ih =>
    intro seen
    by_cases h : a.1 ∈ seen
    · simp only [dedupKeysAux, if_pos h, ih, List.map_cons, List.mem_cons]
      constructor
      · rintro ⟨hns, hm⟩
        exact ⟨hns, Or.inr hm⟩
      · rintro ⟨hns, rfl | hm⟩
        · exact absurd h hns
        · exact ⟨hns, hm⟩
    · simp only [dedupKeysAux, if_neg h, List.map_cons, List.mem_cons, ih]
      constructor
      · rintro (rfl | ⟨hns, hm⟩)
        · exact ⟨h, Or.inl rfl⟩
        · exact ⟨fun hs => hns (Or.inr hs), Or.inr hm⟩
      · rintro ⟨hns, rfl | hm⟩
        · exact Or.inl rfl
        · by_cases hta : t = a.1
          · exact Or.inl hta
          · refine Or.inr ⟨?_, hm⟩
            rintro (h1 | h2)
            · exact hta h1
            · exact hns h2

theorem dedup_of_sorted_strict {α : Type} {s : List (ℕ × α)}
    (hs : List.Pairwise keyLe s) :
    List.Pairwise (fun p q : ℕ × α => p.1 < q.1) (dedupKeysAux [] s) := by
  have hsub := dedupKeysAux_sublist s []
  have hle : List.Pairwise keyLe (dedupKeysAux [] s) := hs.sublist hsub
  have hnd : ((dedupKeysAux [] s).map Prod.fst).Nodup :=
    (dedupKeysAux_keys_nodup s []).1
  have hne : List.Pairwise (fun p q : ℕ × α => p.1 ≠ q.1) (dedupKeysAux [] s) :=
    List.pairwise_map.mp hnd
  exact (hle.and hne).imp (fun h => lt_of_le_of_ne h.1 h.2)

theorem mergeChunks_mem_iff {α : Type} (cs : List (List (ℕ × α))) (t : ℕ) (v : α) :
    (t, v) ∈ mergeChunks cs ↔ cs.flatten.find? (fun p => p.1 == t) = some (t, v) := by
  rw [mergeChunks, mem_dedupKeysAux]
  simp only [List.not_mem_nil, not_false_iff, true_and]
  rw [find?_eq_head?_filter, find?_eq_head?_filter, filter_insertionSort_key]

/-- C3 counterexample: two files both carry timestamp `0` with different
values.  Putting the second file's row first is an admissible result of the
default (unstable) sort, and the merge then retains the second file's value
`(0, 2)`, although the first occurrence in file order — the earliest file's
entry — is `(0, 1)`.  So the code does not guarantee first-occurrence-wins
on duplicated timestamps. -/
theorem merge_tie_order_not_first_wins :
    isMergeResult [[((0:ℕ), (1:ℚ))], [(0, 2)]] [(0, 2)]
    ∧ [[((0:ℕ), (1:ℚ))], [(0, 2)]].flatten.find? (fun p => p.1 == 0) = some (0, 1)
    ∧ ((0:ℕ), (2:ℚ)) ≠ ((0:ℕ), (1:ℚ)) := by
  refine ⟨⟨[(0, 2), (0, 1)], ⟨List.Perm.swap ((0:ℕ), (1:ℚ)) ((0:ℕ), (2:ℚ)) [], ?_⟩, rfl⟩,
    by decide, by decide⟩
  decide

/-- C3 (amended): the merge's sort has an unspecified tie order among equal
timestamps (`sort_index()` defaults to an unstable sort), so its admissible
results are the de-duplications of any key-sorted permutation of the
file-order concatenation.  Every admissible result has strictly increasing,
unique timestamps, contains only rows from the concatenation, and keeps
exactly the concatenation's timestamps — the retained value at a duplicated
timestamp is one of the files' values for it, determined by the tie order.
Under a stable tie order (equal timestamps kept in file order, which is the
admissible instance `mergeChunks`) the retained entry is the first occurrence
in file order, i.e. the earliest file's value. -/
theorem merge_admissible_results_spec {α : Type} (cs : List (List (ℕ × α)))
    (out : List (ℕ × α)) (h : isMergeResult cs out) :
    List.Pairwise (fun p q : ℕ × α => p.1 < q.1) out
    ∧ (∀ r ∈ out, r ∈ cs.flatten)
    ∧ (∀ t : ℕ, t ∈ out.map Prod.fst ↔ t ∈ cs.flatten.map Prod.fst)
    ∧ isMergeResult cs (mergeChunks cs)
    ∧ (∀ (t : ℕ) (v : α),
        ((t, v) ∈ mergeChunks cs
          ↔ cs.flatten.find? (fun p => p.1 == t) = some (t, v))) := by
  obtain ⟨s, ⟨hperm, hsort⟩, hout⟩ := h
  subst hout
  refine ⟨dedup_of_sorted_strict hsort, ?_, ?_, ?_, fun t v => mergeChunks_mem_iff cs t v⟩
  · intro r hr
    exact hperm.subset ((dedupKeysAux_sublist s []).subset hr)
  · intro t
    rw [mem_keys_dedupKeysAux]
    simp only [List.not_mem_nil, not_false_iff, true_and]
    exact (hperm.map Prod.fst).mem_iff
  · exact ⟨List.insertionSort keyLe cs.flatten,
      ⟨List.perm_insertionSort keyLe cs.flatten,
       List.sorted_insertionSort keyLe cs.flatten⟩, rfl⟩

/-- Witness for C3 on two one-row files with distinct timestamps. -/
theorem merge_admissible_results_spec_witness :
    isMergeResult [[((0:ℕ), (1:ℚ))], [(1, 2)]] [(0, 1), (1, 2)]
    ∧ (List.Pairwise (fun p q : ℕ × ℚ => p.1 < q.1) [(0, 1), (1, 2)]
      ∧ (∀ r ∈ [((0:ℕ), (1:ℚ)), (1, 2)], r ∈ [[((0:ℕ), (1:ℚ))], [(1, 2)]].flatten)
      ∧ (∀ t : ℕ, t ∈ [((0:ℕ), (1:ℚ)), (1, 2)].map Prod.fst
          ↔ t ∈ [[((0:ℕ), (1:ℚ))], [(1, 2)]].flatten.map Prod.fst)
      ∧ isMergeResult [[((0:ℕ), (1:ℚ))], [(1, 2)]]
          (mergeChunks [[((0:ℕ), (1:ℚ))], [(1, 2)]])
      ∧ (∀ (t : ℕ) (v : ℚ),
          ((t, v) ∈ mergeChunks [[((0:ℕ), (1:ℚ))], [(1, 2)]]
            ↔ [[((0:ℕ), (1:ℚ))], [(1, 2)]].flatten.find? (fun p => p.1 == t)
                = some (t, v)))) :=
  ⟨⟨[(0, 1), (1, 2)], ⟨List.Perm.refl _, by decide⟩, rfl⟩,
   merge_admissible_results_spec [[((0:ℕ), (1:ℚ))], [(1, 2)]] [(0, 1), (1, 2)]
     ⟨[(0, 1), (1, 2)], ⟨List.Perm.refl _, by decide⟩, rfl⟩⟩

/-! ### C1 and supporting lemmas -/

theorem all_some_getD {xs : List (Option ℚ)} (h : ∀ x ∈ xs, x.isSome) {i : ℕ}
    (hi : i < xs.length) : ∃ v, xs.getD i none = some v := by
  have hmem : xs[i] ∈ xs := List.getElem_mem hi
  obtain ⟨v, hv⟩ := Option.isSome_iff_exists.mp (h _ hmem)
  exact ⟨v, by simp [List.getD_eq_getElem?_getD, List.getElem?_eq_getElem hi, hv]⟩

theorem windowVals_ne_nil {w : ℕ} {xs : List (Option ℚ)} (h : ∀ x ∈ xs, x.isSome)
    {i : ℕ} (hi : i < xs.length) : windowVals w xs i ≠ [] := by
  rw [windowVals]
  have hlen : ((xs.drop (rollWinLo w i)).take (rollWinLen w i)).length
      = min (rollWinLen w i) (xs.length - rollWinLo w i) := by
    simp [List.length_take, List.length_drop]
  have hone : 1 ≤ min (rollWinLen w i) (xs.length - rollWinLo w i) :=
    one_le_windowSize hi
  have hpos : ((xs.drop (rollWinLo w i)).take (rollWinLen w i)) ≠ [] := by
    intro hcon
    rw [hcon] at hlen
    simp at hlen
    omega
  obtain ⟨a, sl, hcons⟩ := List.exists_cons_of_ne_nil hpos
  have ha : a ∈ xs := by
    have h1 : a ∈ (xs.drop (rollWinLo w i)).take (rollWinLen w i) := by
      rw [hcons]
      exact List.mem_cons_self a sl
    exact List.mem_of_mem_drop (List.mem_of_mem_take h1)
  obtain ⟨y, hy⟩ := Option.isSome_iff_exists.mp (h a ha)
  rw [hcons, hy]
  simp [List.filterMap_cons]

theorem rollingMedian_isSome {w : ℕ} {xs : List (Option ℚ)} (h : ∀ x ∈ xs, x.isSome)
    {i : ℕ} (hi : i < xs.length) : ∃ m, (rollingMedian w xs).getD i none = some m := by
  rw [rollingMedian, getD_map_range _ _ hi]
  exact Option.isSome_iff_exists.mp (median_isSome (windowVals_ne_nil h hi))

theorem deviationList_all_some {w : ℕ} {xs : List (Option ℚ)} (h : ∀ x ∈ xs, x.isSome) :
    ∀ x ∈ deviationList w xs, x.isSome := by
  intro x hx
  rw [deviationList] at hx
  rcases List.mem_map.mp hx with ⟨j, hj, hfj⟩
  have hjn : j < xs.length := by simpa using List.mem_range.mp hj
  obtain ⟨v, hv⟩ := all_some_getD h hjn
  obtain ⟨m, hm⟩ := rollingMedian_isSome h hjn
  rw [hv, hm] at hfj
  rw [← hfj]
  rfl

/-- C1: `remove_spikes` on an all-present series keeps the index untouched
(no entry is dropped) and, pointwise, keeps the input value iff the absolute
deviation from the centered rolling median is at most
`threshold * 1.4826 * (rolling median of the deviations)`, and replaces it by
missing otherwise. -/
theorem spike_filter_pointwise_spec (s : List (ℕ × ℚ)) (w : ℕ) (thr : ℚ) (i : ℕ)
    (hi : i < s.length) :
    (removeSpikesSeries w thr (s.map (fun p => (p.1, some p.2)))).map Prod.fst
        = s.map Prod.fst
    ∧ ∃ d m,
        (deviationList w (s.map (fun p => some p.2))).getD i none = some d
        ∧ (rollingMedian w (deviationList w (s.map (fun p => some p.2)))).getD i none
            = some m
        ∧ (removeSpikesSeries w thr (s.map (fun p => (p.1, some p.2)))).getD i (0, none)
            = ((s.getD i (0, 0)).1,
               if d ≤ thr * (madScale * m) then some (s.getD i (0, 0)).2 else none) := by
  have hsnd : (s.map (fun p => (p.1, some p.2))).map Prod.snd
      = s.map (fun p => some p.2) := by
    rw [List.map_map]
    exact List.map_congr_left fun a _ => rfl
  have hfst : (s.map (fun p => (p.1, some p.2))).map Prod.fst = s.map Prod.fst := by
    rw [List.map_map]
    exact List.map_congr_left fun a _ => rfl
  have hx : ∀ x ∈ s.map (fun p => some p.2), x.isSome := by
    intro x hxm
    rcases List.mem_map.mp hxm with ⟨p, _, hp⟩
    rw [← hp]
    rfl
  have hxlen : i < (s.map (fun p => some p.2)).length := by simpa using hi
  constructor
  · rw [removeSpikesSeries_keys]
    exact hfst
  · obtain ⟨v, hv⟩ := all_some_getD hx hxlen
    obtain ⟨m, hm⟩ := rollingMedian_isSome hx hxlen
    have hd : (deviationList w (s.map (fun p => some p.2))).getD i none = some |v - m| := by
      rw [deviationList, getD_map_range _ _ hxlen, hv, hm]
    have hdevlen : i < (deviationList w (s.map (fun p => some p.2))).length := by
      rw [length_deviationList]
      exact hxlen
    obtain ⟨mm, hmm⟩ := rollingMedian_isSome (deviationList_all_some hx) hdevlen
    have hveq : v = (s.getD i (0, 0)).2 := by
      have hv2 : (s.map (fun p => some p.2)).getD i none = some ((s.getD i (0, 0)).2) := by
        simp [List.getD_eq_getElem?_getD, List.getElem?_map, List.getElem?_eq_getElem hi]
      exact Option.some.inj (hv.symm.trans hv2)
    refine ⟨|v - m|, mm, hd, hmm, ?_⟩
    rw [removeSpikesSeries, hsnd, hfst,
      zip_getD _ _ i 0 none (by simpa using hi) (by rw [length_removeSpikesVals]; exact hxlen)]
    have hc1 : (s.map Prod.fst).getD i 0 = (s.getD i (0, 0)).1 := by
      simp [List.getD_eq_getElem?_getD, List.getElem?_map, List.getElem?_eq_getElem hi]
    have hc2 : (removeSpikesVals w thr (s.map (fun p => some p.2))).getD i none
        = if |v - m| ≤ thr * (madScale * mm) then some v else none := by
      rw [removeSpikesVals, getD_map_range _ _ hxlen, hd, hmm, hv]
      dsimp only
      by_cases hcmp : |v - m| ≤ thr * (madScale * mm)
      · rw [if_neg (not_lt.mpr hcmp), if_pos hcmp]
      · rw [if_pos (not_le.mp hcmp), if_neg hcmp]
    rw [hc1, hc2, hveq]

/-- Witness for C1 on the one-point series `[(5, 3)]` with the station
defaults (window 24, threshold 5). -/
theorem spike_filter_pointwise_spec_witness :
    (0 : ℕ) < [((5:ℕ), (3:ℚ))].length
    ∧ ((removeSpikesSeries 24 5 ([((5:ℕ), (3:ℚ))].map (fun p => (p.1, some p.2)))).map Prod.fst
          = [((5:ℕ), (3:ℚ))].map Prod.fst
      ∧ ∃ d m,
          (deviationList 24 ([((5:ℕ), (3:ℚ))].map (fun p => some p.2))).getD 0 none = some d
          ∧ (rollingMedian 24
                (deviationList 24 ([((5:ℕ), (3:ℚ))].map (fun p => some p.2)))).getD 0 none
              = some m
          ∧ (removeSpikesSeries 24 5
                ([((5:ℕ), (3:ℚ))].map (fun p => (p.1, some p.2)))).getD 0 (0, none)
              = (([((5:ℕ), (3:ℚ))].getD 0 (0, 0)).1,
                 if d ≤ 5 * (madScale * m) then some (([((5:ℕ), (3:ℚ))].getD 0 (0, 0)).2)
                 else none)) :=
  ⟨by decide, spike_filter_pointwise_spec [(5, 3)] 24 5 0 (by decide)⟩

/-! ### C7 and supporting lemmas -/

theorem meanOpt_eq_none_iff {l : List ℚ} : meanOpt l = none ↔ l = [] := by
  rw [meanOpt]
  by_cases h : l.isEmpty
  · simp [h, List.isEmpty_iff.mp h]
  · simp [h]
    exact fun hc => h (by simp [hc])

theorem resampleDaily_mem {xs : List (ℕ × Option ℚ)} {d : ℕ} {o : Option ℚ}
    (h : (d, o) ∈ resampleDaily xs) :
    o = meanOpt ((xs.filter (fun p => dayOfHour p.1 = d)).filterMap Prod.snd) := by
  rw [resampleDaily] at h
  by_cases hne : xs.isEmpty
  · rw [if_pos hne] at h
    simp at h
  · rw [if_neg hne] at h
    rcases List.mem_map.mp h with ⟨k, _, heq⟩
    have h1 : dayOfHour (minKey xs) + k = d := congrArg Prod.fst heq
    have h2 : meanOpt ((xs.filter
        (fun p => dayOfHour p.1 = dayOfHour (minKey xs) + k)).filterMap Prod.snd) = o :=
      congrArg Prod.snd heq
    rw [← h2, h1]

/-- C7: each value of the daily aggregate of the differential column is the
calendar-day mean of the spike-cleaned hourly differential over only the
present (non-missing) hours of that day; a day with no present hour is
missing, never zero. -/
theorem daily_mean_excludes_missing (e f : List (ℕ × Option ℚ)) (d : ℕ) (o : Option ℚ)
    (h : (d, o) ∈ computeDifferentialDaily e f) :
    o = meanOpt (((computeDifferentialHourly e f).filter
          (fun p => dayOfHour p.1 = d)).filterMap Prod.snd)
    ∧ (o = none ↔ ((computeDifferentialHourly e f).filter
          (fun p => dayOfHour p.1 = d)).filterMap Prod.snd = []) := by
  rw [computeDifferentialDaily] at h
  have h1 := resampleDaily_mem h
  refine ⟨h1, ?_⟩
  rw [h1]
  exact meanOpt_eq_none_iff

/-- Witness for C7 on the identical one-point pair `[(0, 1)]`. -/
theorem daily_mean_excludes_missing_witness :
    ((0, some (0:ℚ)) ∈ computeDifferentialDaily [(0, some 1)] [(0, some 1)])
    ∧ (some (0:ℚ) = meanOpt (((computeDifferentialHourly [(0, some 1)] [(0, some 1)]).filter
          (fun p => dayOfHour p.1 = 0)).filterMap Prod.snd)
      ∧ (some (0:ℚ) = none
          ↔ ((computeDifferentialHourly [(0, some 1)] [(0, some 1)]).filter
              (fun p => dayOfHour p.1 = 0)).filterMap Prod.snd = [])) := by
  have hdiff : diffSeries [(0, some (1:ℚ))] [(0, some 1)] = [(0, some 0)] := by
    rw [diffSeries_self]
    decide
  have h2 : computeDifferentialHourly [(0, some (1:ℚ))] [(0, some 1)] = [(0, some 0)] := by
    rw [computeDifferentialHourly, hdiff]
    have h3 : [((0:ℕ), some (0:ℚ))] = [(0:ℕ)].map (fun t => (t, some (0:ℚ))) := rfl
    rw [h3, removeSpikesSeries_const]
  have hmem : (0, some (0:ℚ)) ∈ computeDifferentialDaily [(0, some 1)] [(0, some 1)] := by
    rw [computeDifferentialDaily, h2]
    norm_num [resampleDaily, minKey, maxKey, dayOfHour, meanOpt, List.filter_cons,
      List.filterMap_cons, List.range_succ]
    simp
  exact ⟨hmem, daily_mean_excludes_missing _ _ 0 (some 0) hmem⟩

/-! ### C2: threshold referencer -/

theorem foldl_min_map_sub (T : ℚ) :
    ∀ (l : List ℚ) (a : ℚ),
      (l.map (fun x => x - T)).foldl min (a - T) = l.foldl min a - T := by
  intro l
  induction l with
  | nil => intro a; rfl
  | cons b l ih =>
    intro a
    simp only [List.map_cons, List.foldl_cons]
    rw [min_sub_sub_right, ih]

theorem listMin_map_sub (T : ℚ) (l : List ℚ) :
    listMin (l.map (fun x => x - T)) = (listMin l).map (fun x => x - T) := by
  cases l with
  | nil => rfl
  | cons a l =>
    simp only [List.map_cons, listMin, Option.map_some']
    rw [foldl_min_map_sub]

theorem sliceDays_referencedSeries (lo hi : ℕ) (daily : List (ℕ × Option ℚ)) (T : ℚ) :
    sliceDays lo hi (referencedSeries daily T)
      = referencedSeries (sliceDays lo hi daily) T := by
  rw [sliceDays, referencedSeries, List.filter_map, sliceDays, referencedSeries]
  rfl

theorem presentVals_referencedSeries (daily : List (ℕ × Option ℚ)) (T : ℚ) :
    presentVals (referencedSeries daily T) = (presentVals daily).map (fun v => v - T) := by
  induction daily with
  | nil => rfl
  | cons a l ih =>
    rcases a with ⟨t, _ | v⟩
    · simpa [referencedSeries, presentVals, List.filterMap_cons] using ih
    · simpa [referencedSeries, presentVals, List.filterMap_cons] using ih

/-- C2 counterexample: the deflation magnitude is not always positive — on a
series that rises after the event, `-low_2015_ref` is negative. -/
theorem deflation_not_always_positive :
    deflationMagnitude [(16436, some 0), (16549, some 5)] = some (-5)
    ∧ ¬(0 < (-5 : ℚ)) := by
  constructor
  · norm_num [deflationMagnitude, low2015ref, threshold2015, referencedSeries, sliceDays,
      presentVals, listMax, listMin, PRE_LO, PRE_HI, POST_LO, POST_HI, List.filter_cons,
      List.filterMap_cons]
  · norm_num

/-- C2 (amended): whenever the pre-event window has a maximum `T`,
`threshold_2015` is that maximum of the raw pre-event slice, the deflation
magnitude (computed as the negated minimum of the rebased post-event slice)
equals `T` minus the raw post-event minimum, and the reported current state is
the series' last value minus `T`.  (The claim's "always a positive magnitude"
is dropped: positivity holds only when the post-event trough lies below the
threshold.) -/
theorem threshold_referencer_spec (daily : List (ℕ × Option ℚ)) (T : ℚ)
    (hT : threshold2015 daily = some T) :
    threshold2015 daily = listMax (presentVals (sliceDays PRE_LO PRE_HI daily))
    ∧ deflationMagnitude daily
        = (listMin (presentVals (sliceDays POST_LO POST_HI daily))).map (fun m => T - m)
    ∧ currentValue daily = (daily.getLast?.bind Prod.snd).map (fun v => v - T) := by
  refine ⟨rfl, ?_, ?_⟩
  · rw [deflationMagnitude, low2015ref, hT, Option.some_bind,
      sliceDays_referencedSeries, presentVals_referencedSeries, listMin_map_sub]
    cases listMin (presentVals (sliceDays POST_LO POST_HI daily)) with
    | none => rfl
    | some m => simp [neg_sub]
  · rw [currentValue, hT, Option.some_bind]
    cases hlast : daily.getLast? with
    | none => rfl
    | some p =>
      cases p with
      | mk t x =>
        cases x <;> rfl

/-- Witness for C2 on a one-day series inside the pre-event window. -/
theorem threshold_referencer_spec_witness :
    threshold2015 [(16436, some (2:ℚ))] = some 2
    ∧ (threshold2015 [(16436, some (2:ℚ))]
        = listMax (presentVals (sliceDays PRE_LO PRE_HI [(16436, some (2:ℚ))]))
      ∧ deflationMagnitude [(16436, some (2:ℚ))]
          = (listMin (presentVals (sliceDays POST_LO POST_HI [(16436, some (2:ℚ))]))).map
              (fun m => 2 - m)
      ∧ currentValue [(16436, some (2:ℚ))]
          = ([(16436, some (2:ℚ))].getLast?.bind Prod.snd).map (fun v => v - 2)) :=
  ⟨rfl, threshold_referencer_spec [(16436, some 2)] 2 rfl⟩

/-! ### C8: empty selection raises instead of returning an empty result -/

/-- C8 (code bug): when no file matches, `load_station` reaches
`pd.concat(hourly_chunks)` with an empty list, which raises
`ValueError: No objects to concatenate` instead of surfacing an explicit
empty "no data available" result. -/
theorem loader_empty_input_error :
    loadStation [] = Except.error "No objects to concatenate" := rfl

/-! ### C9: coverage window -/

theorem windowFilter_mem_bounds {file : List (ℕ × ℚ)} {p : ℕ × ℚ}
    (hp : p ∈ windowFilter file) : TIME_START_SEC ≤ p.1 ∧ p.1 ≤ TIME_END_SEC := by
  have h := (List.mem_filter.mp hp).2
  simpa using h

theorem resampleHourly_keys_bounds {xs : List (ℕ × ℚ)} {t : ℕ}
    (ht : t ∈ (resampleHourly xs).map Prod.fst) :
    hourOf (minKey xs) ≤ t ∧ t ≤ hourOf (maxKey xs) := by
  rw [resampleHourly] at ht
  by_cases hne : xs.isEmpty
  · rw [if_pos hne] at ht
    simp at ht
  · rw [if_neg hne, List.map_map] at ht
    rcases List.mem_map.mp ht with ⟨k, hk, hkt⟩
    have hkb : k < hourOf (maxKey xs) + 1 - hourOf (minKey xs) := List.mem_range.mp hk
    simp only [Function.comp] at hkt
    omega

/-- C9 counterexample: a raw sample at 2026-01-16 00:00:00 — exactly the
requested window end — survives into the loader's output as the hourly entry
`TIME_END_DAY * 24`, refuting the half-open reading under which no entry at
or after the window end may survive. -/
theorem coverage_end_day_survives :
    (TIME_END_DAY * 24) ∈
      ((loadStation [[(TIME_END_DAY * 86400, (15:ℚ))]]).toOption.getD []).map Prod.fst
    ∧ ¬(TIME_END_DAY * 24 < TIME_END_DAY * 24) := by
  constructor
  · decide
  · omega

/-- C9 (amended): every timestamp in a loaded station series lies inside the
requested window read as a closed interval that includes the whole end date:
between hour `TIME_START_DAY * 24` and hour `TIME_END_DAY * 24 + 23`. -/
theorem coverage_invariant_closed_window (files : List (List (ℕ × ℚ)))
    (out : List (ℕ × Option ℚ)) (hok : loadStation files = Except.ok out) :
    ∀ t ∈ out.map Prod.fst,
      TIME_START_DAY * 24 ≤ t ∧ t ≤ TIME_END_DAY * 24 + 23 := by
  intro t ht
  rw [loadStation] at hok
  by_cases hemp : (files.filterMap fileToHourly).isEmpty
  · rw [if_pos hemp] at hok
    exact absurd hok (by simp)
  · rw [if_neg hemp] at hok
    have hout : out = removeSpikesSeries 24 5 (mergeChunks (files.filterMap fileToHourly)) :=
      (Except.ok.inj hok).symm
    rw [hout, removeSpikesSeries_keys] at ht
    rcases List.mem_map.mp ht with ⟨r, hr, hrt⟩
    have hr2 : r ∈ List.insertionSort keyLe (files.filterMap fileToHourly).flatten :=
      (dedupKeysAux_sublist _ []).subset hr
    have hr3 : r ∈ (files.filterMap fileToHourly).flatten :=
      ((List.perm_insertionSort keyLe _).mem_iff).mp hr2
    rcases List.mem_flatten.mp hr3 with ⟨chunk, hchunk, hrchunk⟩
    rcases List.mem_filterMap.mp hchunk with ⟨file, _, hfile⟩
    rw [fileToHourly] at hfile
    by_cases hwe : (windowFilter file).isEmpty
    · rw [if_pos hwe] at hfile
      exact absurd hfile (by simp)
    · rw [if_neg hwe] at hfile
      have hchunk2 : chunk = resampleHourly ((windowFilter file).map
          (fun p => (p.1, pressure_to_depth p.2))) := (Option.some.inj hfile).symm
      have hkey : r.1 ∈ chunk.map Prod.fst := List.mem_map_of_mem Prod.fst hrchunk
      rw [hchunk2] at hkey
      have hb := resampleHourly_keys_bounds hkey
      have hyne : (windowFilter file).map (fun p => (p.1, pressure_to_depth p.2)) ≠ [] := by
        intro hnil
        exact hwe (by rw [List.isEmpty_iff, ← List.map_eq_nil_iff]; exact hnil)
      have hbnd : ∀ p ∈ (windowFilter file).map (fun p => (p.1, pressure_to_depth p.2)),
          TIME_START_SEC ≤ p.1 ∧ p.1 ≤ TIME_END_SEC := by
        intro p hp
        rcases List.mem_map.mp hp with ⟨q, hq, hqp⟩
        have hqb := windowFilter_mem_bounds hq
        rw [← hqp]
        exact hqb
      have hlow : TIME_START_SEC ≤
          minKey ((windowFilter file).map (fun p => (p.1, pressure_to_depth p.2))) :=
        le_minKey hyne (fun p hp => (hbnd p hp).1)
      have hhigh :
          maxKey ((windowFilter file).map (fun p => (p.1, pressure_to_depth p.2)))
            ≤ TIME_END_SEC :=
        maxKey_le hyne (fun p hp => (hbnd p hp).2)
      have h1 : TIME_START_SEC / 3600 ≤ hourOf
          (minKey ((windowFilter file).map (fun p => (p.1, pressure_to_depth p.2)))) :=
        Nat.div_le_div_right hlow
      have h2 : hourOf
          (maxKey ((windowFilter file).map (fun p => (p.1, pressure_to_depth p.2))))
            ≤ TIME_END_SEC / 3600 :=
        Nat.div_le_div_right hhigh
      have e1 : TIME_START_SEC / 3600 = TIME_START_DAY * 24 := by decide
      have e2 : TIME_END_SEC / 3600 = TIME_END_DAY * 24 + 23 := by decide
      rw [← hrt]
      simp only [hourOf] at hb h1 h2
      omega

/-- Witness for C9 on a one-sample file at the window start. -/
theorem coverage_invariant_closed_window_witness :
    loadStation [[(TIME_START_DAY * 86400, (15:ℚ))]]
        = Except.ok (removeSpikesSeries 24 5 (mergeChunks
            ([[(TIME_START_DAY * 86400, (15:ℚ))]].filterMap fileToHourly)))
    ∧ TIME_START_DAY * 24 ≤ TIME_START_DAY * 24
    ∧ TIME_START_DAY * 24 ≤ TIME_END_DAY * 24 + 23 := by
  have hok : loadStation [[(TIME_START_DAY * 86400, (15:ℚ))]]
      = Except.ok (removeSpikesSeries 24 5 (mergeChunks
          ([[(TIME_START_DAY * 86400, (15:ℚ))]].filterMap fileToHourly))) := by
    rw [loadStation, if_neg (by decide)]
  have hmem : TIME_START_DAY * 24 ∈
      (removeSpikesSeries 24 5 (mergeChunks
        ([[(TIME_START_DAY * 86400, (15:ℚ))]].filterMap fileToHourly))).map Prod.fst := by
    rw [removeSpikesSeries_keys]
    decide
  exact ⟨hok,
    coverage_invariant_closed_window [[(TIME_START_DAY * 86400, (15:ℚ))]] _ hok
      (TIME_START_DAY * 24) hmem⟩

/-! ### C10: depth conversion commutes with hourly aggregation -/

theorem minKey_map_depth (xs : List (ℕ × ℚ)) :
    minKey (xs.map (fun p => (p.1, pressure_to_depth p.2))) = minKey xs := by
  cases xs with
  | nil => rfl
  | cons a l =>
    simp only [minKey, List.map_cons]
    rw [List.foldl_map]

theorem maxKey_map_depth (xs : List (ℕ × ℚ)) :
    maxKey (xs.map (fun p => (p.1, pressure_to_depth p.2))) = maxKey xs := by
  cases xs with
  | nil => rfl
  | cons a l =>
    simp only [maxKey, List.map_cons]
    rw [List.foldl_map]

theorem sum_map_affine (a b : ℚ) :
    ∀ l : List ℚ, (l.map (fun x => (x - a) * b)).sum = (l.sum - l.length * a) * b := by
  intro l
  induction l with
  | nil => simp
  | cons c l ih =>
    simp only [List.map_cons, List.sum_cons, List.length_cons, ih]
    push_cast
    ring

theorem meanOpt_map_affine (a b : ℚ) (l : List ℚ) :
    meanOpt (l.map (fun x => (x - a) * b)) = (meanOpt l).map (fun x => (x - a) * b) := by
  cases l with
  | nil => rfl
  | cons c l =>
    rw [meanOpt, meanOpt]
    simp only [List.isEmpty_cons, if_false, Bool.false_eq_true, Option.map_some']
    rw [sum_map_affine, List.length_map]
    have hn : ((c :: l).length : ℚ) ≠ 0 := by
      simp only [List.length_cons]
      push_cast
      positivity
    congr 1
    field_simp

/-- C10: converting each raw pressure sample to depth and then taking hourly
means equals taking hourly means of raw pressures and converting each mean:
the loader's per-sample affine conversion commutes with `resample("1h")`
aggregation in exact arithmetic (empty bins stay missing on both sides). -/
theorem depth_conversion_commutes_with_hourly_mean (xs : List (ℕ × ℚ)) :
    resampleHourly (xs.map (fun p => (p.1, pressure_to_depth p.2)))
      = (resampleHourly xs).map (fun q => (q.1, q.2.map pressure_to_depth)) := by
  by_cases hne : xs.isEmpty
  · rw [resampleHourly, resampleHourly, if_pos hne, if_pos (by simpa using hne)]
    rfl
  · rw [resampleHourly, resampleHourly, if_neg hne, if_neg (by simpa using hne),
      minKey_map_depth, maxKey_map_depth, List.map_map]
    apply List.map_congr_left
    intro k _
    simp only [Function.comp]
    have hfilter : (xs.map (fun p => (p.1, pressure_to_depth p.2))).filter
        (fun p => hourOf p.1 = hourOf (minKey xs) + k)
        = (xs.filter (fun p => hourOf p.1 = hourOf (minKey xs) + k)).map
            (fun p => (p.1, pressure_to_depth p.2)) := by
      rw [List.filter_map]
      rfl
    have hsnd : ((xs.filter (fun p => hourOf p.1 = hourOf (minKey xs) + k)).map
        (fun p => (p.1, pressure_to_depth p.2))).map Prod.snd
        = ((xs.filter (fun p => hourOf p.1 = hourOf (minKey xs) + k)).map Prod.snd).map
            pressure_to_depth := by
      rw [List.map_map, List.map_map]
      rfl
    rw [hfilter, hsnd]
    have hpd : pressure_to_depth = fun x => (x - 147/10) * (670/1000) := rfl
    rw [hpd, meanOpt_map_affine]

end Botpt
